import Mathlib

/-!
Verification development for `lockarena.c`, a workbench comparing lock
acquisition policies.  The definitions below are shallow embeddings of the
C functions: the packed bit-matrix `thread_wq` is a map from cell index to
cell value (a 64-bit word modelled as a `Nat` kept below `2 ^ 64` by the
update operations), the recursion counters `recurs_count` are a map from
flat index `t * nb_locks + l` to an unsigned 32-bit value, and the
recursive cycle oracle `is_looping` is fuel-indexed (the C recursion has no
structural bound; fuel exhaustion conservatively answers `false`).
-/

namespace LockArena

/-- `NB_BITS_PER_CELL`: width of one packed cell of the occupancy matrix. -/
def NB_BITS_PER_CELL : Nat := 64

/-- Loop body of `upper_multiple_of` (fuel-indexed rendering of the C
`while (u < n)` loop; `fuel = n` always suffices for `m ≥ 1`). -/
def upper_multiple_of_go (n m : Nat) : Nat → Nat → Nat → Nat
  | _, l, 0 => l
  | u, l, fuel + 1 => if u < n then upper_multiple_of_go n m (u + m) (l + 1) fuel else l

/-- `upper_multiple_of n m` from the source: starts at `u = m, l = 1` and
counts how many multiples of `m` are needed to reach `n`. -/
def upper_multiple_of (n m : Nat) : Nat :=
  upper_multiple_of_go n m m 1 n

/-- Cell index of lock `l` in thread `t`'s row:
`(t << thread_stride) + l / NB_BITS_PER_CELL`. -/
def cellIdx (stride t l : Nat) : Nat :=
  (t <<< stride) + l / NB_BITS_PER_CELL

/-- `THREAD_HOLD(t, l)`: bit `l % 64` of the cell holding lock `l` of
thread `t`'s row. -/
def THREAD_HOLD (wq : Nat → Nat) (stride t l : Nat) : Bool :=
  (wq (cellIdx stride t l)).testBit (l % NB_BITS_PER_CELL)

/-- `THREAD_HOLD_GROUP(t, l)`: the whole packed cell containing lock `l` of
thread `t`'s row. -/
def THREAD_HOLD_GROUP (wq : Nat → Nat) (stride t l : Nat) : Nat :=
  wq (cellIdx stride t l)

/-- Pointwise function update, used to model a store into one cell. -/
def updateFn (f : Nat → Nat) (i v : Nat) : Nat → Nat :=
  fun j => if j = i then v else f j

/-- `THREAD_SET(t, l)`: or bit `l % 64` into the corresponding cell. -/
def THREAD_SET (wq : Nat → Nat) (stride t l : Nat) : Nat → Nat :=
  updateFn wq (cellIdx stride t l)
    (wq (cellIdx stride t l) ||| (1 <<< (l % NB_BITS_PER_CELL)))

/-- `THREAD_CLEAR(t, l)`: and the cell with `~(1ULL << (l % 64))`
(the complement taken in 64 bits). -/
def THREAD_CLEAR (wq : Nat → Nat) (stride t l : Nat) : Nat → Nat :=
  updateFn wq (cellIdx stride t l)
    (wq (cellIdx stride t l) &&& ((2 ^ 64 - 1) ^^^ (1 <<< (l % NB_BITS_PER_CELL))))

/-- The cycle oracle `is_looping(t, l, target)` of the source, fuel-indexed.
`ll` is the current position of the outer lock loop (the C `for` starts it
at 0).  Each step of the lock loop and each nested recursive call consumes
one unit of fuel; fuel exhaustion answers `false`.  The body mirrors the C
loop: a zero packed cell at a 64-aligned position skips 64 columns at
once; a held column `ll` other than the one we entered on (`ll == l` is
skipped) enumerates the other threads `tt` holding `ll`; reaching `target`
reports `true`, any other holder is recursed into with `ll` as the new
entered lock. -/
def is_looping (nbThreads nbLocks stride : Nat) (wq : Nat → Nat) :
    Nat → Nat → Nat → Nat → Nat → Bool
  | 0, _, _, _, _ => false
  | fuel + 1, t, l, target, ll =>
    if ll < nbLocks then
      if ll % NB_BITS_PER_CELL = 0 ∧ THREAD_HOLD_GROUP wq stride t ll = 0 then
        is_looping nbThreads nbLocks stride wq fuel t l target (ll + NB_BITS_PER_CELL)
      else if THREAD_HOLD wq stride t ll = false then
        is_looping nbThreads nbLocks stride wq fuel t l target (ll + 1)
      else if ll = l then
        is_looping nbThreads nbLocks stride wq fuel t l target (ll + 1)
      else if (List.range nbThreads).any (fun tt =>
          THREAD_HOLD wq stride tt ll && !(tt == t) &&
            (tt == target || is_looping nbThreads nbLocks stride wq fuel tt ll target 0)) then
        true
      else
        is_looping nbThreads nbLocks stride wq fuel t l target (ll + 1)
    else false

/-- Result of a policy lock call: `ok` is the C return value 0, `refused`
the Matrix policy's -1, `abort` an `assert` failure. -/
inductive LockRes where
  | ok
  | refused
  | abort
deriving DecidableEq, Repr

/-- Observable actions of the Matrix policy, in program order: operations
on the global critical section `m_lock`, on the occupancy matrix `W`, on
the recursion counters `R`, and on the primitive pool `locks`. -/
inductive LockEv where
  | mLock
  | mUnlock
  | setW (t l : Nat)
  | clearW (t l : Nat)
  | incR (t l : Nat)
  | decR (t l : Nat)
  | pLock (l : Nat)
  | pUnlock (l : Nat)
  | assertFail
deriving DecidableEq, Repr

/-- Shared state touched by the Matrix policy: the packed occupancy matrix
and the recursion counters (unsigned 32-bit cells, flat index
`t * nb_locks + l`). -/
structure MState where
  wq : Nat → Nat
  recurs : Nat → Nat

/-- A `recurs_count[idx]++` store: bump one recursion counter cell with
unsigned 32-bit wrap-around. -/
def bumpR (recurs : Nat → Nat) (idx : Nat) : Nat → Nat :=
  updateFn recurs idx ((recurs idx + 1) % 2 ^ 32)

/-- `matrix_lock(t, l)`: if the recursion counter is positive, bump it and
return 0 without touching `W` or the pool; otherwise take `m_lock`, assert
`W[t][l]` is clear, refuse if some holder of `l` can loop back to `t`
(releasing `m_lock`), else set `W[t][l]`, release `m_lock`, bump the
counter and block on the pool lock.  The event list records the actions in
the order the C statements perform them. -/
def matrix_lock (fuel nbThreads nbLocks stride : Nat) (σ : MState) (t l : Nat) :
    LockRes × MState × List LockEv :=
  if 0 < σ.recurs (t * nbLocks + l) then
    (.ok, { σ with recurs := bumpR σ.recurs (t * nbLocks + l) }, [.incR t l])
  else
    if THREAD_HOLD σ.wq stride t l then
      (.abort, σ, [.mLock, .assertFail])
    else if (List.range nbThreads).any (fun tt =>
        THREAD_HOLD σ.wq stride tt l &&
          is_looping nbThreads nbLocks stride σ.wq fuel tt l t 0) then
      (.refused, σ, [.mLock, .mUnlock])
    else
      (.ok, { wq := THREAD_SET σ.wq stride t l, recurs := bumpR σ.recurs (t * nbLocks + l) },
       [.mLock, .setW t l, .mUnlock, .incR t l, .pLock l])

/-- `matrix_unlock(t, l)`: pre-decrement the recursion counter (32-bit
unsigned wrap-around, as in C); if still positive, return; otherwise clear
`W[t][l]` under `m_lock` and release the pool lock. -/
def matrix_unlock (nbLocks stride : Nat) (σ : MState) (t l : Nat) :
    MState × List LockEv :=
  if 0 < (σ.recurs (t * nbLocks + l) + (2 ^ 32 - 1)) % 2 ^ 32 then
    ({ σ with recurs := updateFn σ.recurs (t * nbLocks + l)
                ((σ.recurs (t * nbLocks + l) + (2 ^ 32 - 1)) % 2 ^ 32) },
     [.decR t l])
  else
    ({ wq := THREAD_CLEAR σ.wq stride t l,
       recurs := updateFn σ.recurs (t * nbLocks + l)
                ((σ.recurs (t * nbLocks + l) + (2 ^ 32 - 1)) % 2 ^ 32) },
     [.decR t l, .mLock, .clearW t l, .mUnlock, .pUnlock l])

/-- One Matrix-policy operation of a thread on a fixed (thread, lock)
pair: an acquire attempt (`matrix_lock`) or a release (`matrix_unlock`). -/
inductive MOp where
  | acq
  | rel
deriving DecidableEq, Repr

/-- Run a sequence of Matrix-policy operations of thread `t` on lock `l`,
returning the final state, the number of acquires that returned ok, and
the number of releases performed. -/
def runOps (fuel nbThreads nbLocks stride t l : Nat) : MState → List MOp → MState × Nat × Nat
  | σ, [] => (σ, 0, 0)
  | σ, .acq :: ops =>
    ((runOps fuel nbThreads nbLocks stride t l (matrix_lock fuel nbThreads nbLocks stride σ t l).2.1 ops).1,
     (if (matrix_lock fuel nbThreads nbLocks stride σ t l).1 = .ok then 1 else 0) +
       (runOps fuel nbThreads nbLocks stride t l (matrix_lock fuel nbThreads nbLocks stride σ t l).2.1 ops).2.1,
     (runOps fuel nbThreads nbLocks stride t l (matrix_lock fuel nbThreads nbLocks stride σ t l).2.1 ops).2.2)
  | σ, .rel :: ops =>
    ((runOps fuel nbThreads nbLocks stride t l (matrix_unlock nbLocks stride σ t l).1 ops).1,
     (runOps fuel nbThreads nbLocks stride t l (matrix_unlock nbLocks stride σ t l).1 ops).2.1,
     1 + (runOps fuel nbThreads nbLocks stride t l (matrix_unlock nbLocks stride σ t l).1 ops).2.2)

/-- Validity of an operation sequence: every release happens with a
positive recursion counter (the release precondition of the policy
interface) and no counter ever overflows its 32 bits. -/
def ValidOps (fuel nbThreads nbLocks stride t l : Nat) : MState → List MOp → Bool
  | _, [] => true
  | σ, .acq :: ops =>
    decide (σ.recurs (t * nbLocks + l) + 1 < 2 ^ 32) &&
      ValidOps fuel nbThreads nbLocks stride t l (matrix_lock fuel nbThreads nbLocks stride σ t l).2.1 ops
  | σ, .rel :: ops =>
    decide (0 < σ.recurs (t * nbLocks + l)) &&
      decide (σ.recurs (t * nbLocks + l) < 2 ^ 32) &&
      ValidOps fuel nbThreads nbLocks stride t l (matrix_unlock nbLocks stride σ t l).1 ops

/-- The all-clear state: no occupancy bits, all recursion counters 0. -/
def σEmpty : MState := { wq := fun _ => 0, recurs := fun _ => 0 }

/-! ### Worker loop (`thread_run`)

One iteration of the worker loop, embedded over two input streams: `rng`
is the stream of `rand()` return values (consumed at positions `r, r+1,
…`) and `pol` the stream of policy-call outcomes (`true` for a return
value of 0).  The C expression `rand() % nb_claimed` (and likewise
`% nb_locks` and `% max_sleep_usec`) is a division by zero when the right
operand is 0 — undefined behavior — which the embedding surfaces as
`none`. -/

/-- Events of one worker observable at the shared counters and the policy
interface: the atomic bumps of `nb_trys` and `nb_errs`, the lock and
unlock calls, and the `usleep`. -/
inductive TraceEv where
  | incTrys
  | incErrs
  | lockCall (t l : Nat)
  | unlockCall (t l : Nat)
  | sleepCall (usec : Nat)
deriving DecidableEq, Repr

/-- Contribution of one event to the `nb_trys` counter. -/
def evT : TraceEv → Nat
  | .incTrys => 1
  | _ => 0

/-- Contribution of one event to the `nb_errs` counter. -/
def evE : TraceEv → Nat
  | .incErrs => 1
  | _ => 0

/-- Value of the `nb_trys` counter after a list of events. -/
def countT (es : List TraceEv) : Nat := (es.map evT).sum

/-- Value of the `nb_errs` counter after a list of events. -/
def countE (es : List TraceEv) : Nat := (es.map evE).sum

/-- Whether a trace contains any lock or unlock call. -/
def hasLockTraffic (es : List TraceEv) : Bool :=
  es.any (fun e => match e with
    | .lockCall _ _ => true
    | .unlockCall _ _ => true
    | _ => false)

/-- The claim loop of one iteration (`for (l = 0; l < nb_res; l++)`):
draw a lock index (`rand() % nb_locks`, `none` on `nb_locks = 0`), call
the policy; on success push the index on the local stack and continue, on
failure record the `nb_errs` bump and stop.  Returns the events, the
stack of acquired locks (most recent first), the advanced stream
positions, and whether all draws succeeded (`l == nb_res`). -/
def claimLoop (t nbLocks : Nat) (rng : Nat → Nat) (pol : Nat → Bool) :
    Nat → Nat → Nat → List Nat → Option (List TraceEv × List Nat × Nat × Nat × Bool)
  | 0, r, p, claimed => some ([], claimed, r, p, true)
  | n + 1, r, p, claimed =>
    if nbLocks = 0 then none
    else if pol p then
      match claimLoop t nbLocks rng pol n (r + 1) (p + 1) ((rng r % nbLocks) :: claimed) with
      | none => none
      | some (evs, cl, r', p', full) =>
        some (.lockCall t (rng r % nbLocks) :: evs, cl, r', p', full)
    else
      some ([.lockCall t (rng r % nbLocks), .incErrs], claimed, r + 1, p + 1, false)

/-- One iteration of `thread_run`'s while loop: draw
`nb_res = rand() % nb_claimed` (`none` on `nb_claimed = 0`), bump
`nb_trys`, run the claim loop, sleep (`rand() % max_sleep_usec`, `none`
on `max_sleep_usec = 0`) only when every claim succeeded, then release
the acquired locks in LIFO order.  Returns the events and the advanced
stream positions. -/
def workerIteration (t nbClaimed nbLocks maxSleep : Nat) (rng : Nat → Nat)
    (pol : Nat → Bool) (r p : Nat) : Option (List TraceEv × Nat × Nat) :=
  if nbClaimed = 0 then none
  else
    match claimLoop t nbLocks rng pol (rng r % nbClaimed) (r + 1) p [] with
    | none => none
    | some (evs, claimed, r', p', full) =>
      if full then
        if maxSleep = 0 then none
        else
          some (.incTrys :: (evs ++ [.sleepCall (rng r' % maxSleep)] ++
            claimed.map (fun lk => .unlockCall t lk)), r' + 1, p')
      else
        some (.incTrys :: (evs ++ claimed.map (fun lk => .unlockCall t lk)), r', p')

/-- A list is an iteration block if some worker iteration emits exactly it. -/
def IsIterBlock (evs : List TraceEv) : Prop :=
  ∃ t nbClaimed nbLocks maxSleep rng pol r p r' p',
    workerIteration t nbClaimed nbLocks maxSleep rng pol r p = some (evs, r', p')

/-- A worker's whole event sequence: a concatenation of iteration blocks
(the while loop runs some number of complete iterations). -/
def IsWorkerTrace (tr : List TraceEv) : Prop :=
  ∃ blocks : List (List TraceEv), (∀ b ∈ blocks, IsIterBlock b) ∧ tr = blocks.flatten

/-- `IsPre p l`: `p` is a prefix of `l`. -/
def IsPre {α : Type} (p l : List α) : Prop := ∃ q, p ++ q = l

/-- Prefix-goodness with credit `c`: in every prefix the error count stays
within `c` of the try count. -/
def GoodC (c : Int) (l : List TraceEv) : Prop :=
  ∀ pfx, IsPre pfx l → (countE pfx : Int) ≤ c + countT pfx

/-- An interleaving (shuffle) of several event sequences: at each step one
nonempty sequence contributes its head. -/
inductive Shuffle : List (List TraceEv) → List TraceEv → Prop where
  | done : ∀ ss, (∀ s ∈ ss, s = []) → Shuffle ss []
  | step : ∀ (ss : List (List TraceEv)) (i : Nat) (x : TraceEv) (rest out : List TraceEv),
      ss.get? i = some (x :: rest) → Shuffle (ss.set i rest) out → Shuffle ss (x :: out)

/-! ### Policy C (`timed_lock`) deadline computation -/

/-- A `struct timeval` as returned by `gettimeofday` (`tv_usec < 10^6`
for genuine clock readings). -/
structure Timeval where
  sec : Nat
  usec : Nat
deriving DecidableEq, Repr

/-- A `struct timespec` as passed to `pthread_mutex_timedlock`. -/
structure Timespec where
  sec : Nat
  nsec : Nat
deriving DecidableEq, Repr

/-- The absolute deadline `timed_lock` builds:
`{ tv_sec = now.tv_sec, tv_nsec = now.tv_usec * 1000 + timeout_nsec }` —
note the nanosecond field is not normalized into the seconds field. -/
def timed_lock_deadline (now : Timeval) (timeout_nsec : Nat) : Timespec :=
  { sec := now.sec, nsec := now.usec * 1000 + timeout_nsec }

/-- POSIX well-formedness of a timespec: `0 ≤ tv_nsec < 10^9`
(`pthread_mutex_timedlock` returns `EINVAL` otherwise). -/
def Timespec.wellFormed (ts : Timespec) : Bool := ts.nsec < 1000000000

/-- Total nanosecond value denoted by a timeval. -/
def Timeval.toNanos (tv : Timeval) : Nat := tv.sec * 1000000000 + tv.usec * 1000

/-- Total nanosecond value denoted by a timespec. -/
def Timespec.toNanos (ts : Timespec) : Nat := ts.sec * 1000000000 + ts.nsec

/-! ### Configuration guards and harness sequence (`main`) -/

/-- The `methods[]` table: three policies. -/
def methods : List String := ["Just take it", "Matrix", "TimedLock"]

/-- The guard `main` applies to the `-m` option:
`assert(method <= NB_ELEMS(methods))` — note `<=`, not `<`. -/
def method_assert_guard (m : Nat) : Bool := decide (m ≤ methods.length)

/-- The allocation null-check in `main`:
`if (!pthread_ids || !locks || !thread_wq)` — each argument tells whether
the corresponding allocation returned null; the `recurs_count` argument is
unused because the C condition never tests that pointer. -/
def alloc_check_exits (pthread_ids_null locks_null _recurs_count_null thread_wq_null : Bool) :
    Bool :=
  pthread_ids_null || locks_null || thread_wq_null

/-- Observable steps of `main` after configuration parsing. -/
inductive HarnessEv where
  | banner
  | spawn (t : Nat)
  | sleepSecs (d : Nat)
  | printResults
  | printExiting
  | setQuit
  | joinThread (t : Nat)
deriving DecidableEq, Repr

/-- The straight-line order of `main` after parsing: banner, spawn all
workers, sleep for the configured duration, print the results line, print
the exiting note, set `quit`, then join every worker. -/
def main_trace (nbThreads duration : Nat) : List HarnessEv :=
  [.banner] ++ ((List.range nbThreads).map HarnessEv.spawn) ++
    [.sleepSecs duration, .printResults, .printExiting, .setQuit] ++
    ((List.range nbThreads).map HarnessEv.joinThread)

/-- Index of the first occurrence of an event in a harness trace (the
trace length if absent). -/
def idxOfEv (e : HarnessEv) : List HarnessEv → Nat
  | [] => 0
  | x :: xs => if x = e then 0 else idxOfEv e xs + 1

/-! ### Concrete occupancy matrices for the oracle unit tests

With `nb_locks = 2` the stride is `upper_multiple_of 2 64 = 1`, so thread
`t`'s row starts at cell `2 * t` and both locks live in bits 0 and 1 of
that cell. -/

/-- The S5 seed `{W[0][0], W[1][0], W[1][1], W[2][1]}` packed into cells
(3 threads, 2 locks, stride 1): cell 0 = 1, cell 2 = 3, cell 4 = 2. -/
def wqS5 : Nat → Nat :=
  fun i => if i = 0 then 1 else if i = 2 then 3 else if i = 4 then 2 else 0

/-- State with the S5 occupancy matrix and all recursion counters at 0. -/
def σS5 : MState := { wq := wqS5, recurs := fun _ => 0 }

/-- Variant of the cycle oracle in which the skip lock WOULD propagate:
identical to `is_looping` except that the nested recursive call keeps the
root skip lock `l` instead of passing the lock `ll` it traverses.  This is
not the source's oracle; it is the foil that claim C2 denies, kept for
contrast. -/
def is_looping_prop_skip (nbThreads nbLocks stride : Nat) (wq : Nat → Nat) :
    Nat → Nat → Nat → Nat → Nat → Bool
  | 0, _, _, _, _ => false
  | fuel + 1, t, l, target, ll =>
    if ll < nbLocks then
      if ll % NB_BITS_PER_CELL = 0 ∧ THREAD_HOLD_GROUP wq stride t ll = 0 then
        is_looping_prop_skip nbThreads nbLocks stride wq fuel t l target (ll + NB_BITS_PER_CELL)
      else if THREAD_HOLD wq stride t ll = false then
        is_looping_prop_skip nbThreads nbLocks stride wq fuel t l target (ll + 1)
      else if ll = l then
        is_looping_prop_skip nbThreads nbLocks stride wq fuel t l target (ll + 1)
      else if (List.range nbThreads).any (fun tt =>
          THREAD_HOLD wq stride tt ll && !(tt == t) &&
            (tt == target ||
              is_looping_prop_skip nbThreads nbLocks stride wq fuel tt l target 0)) then
        true
      else
        is_looping_prop_skip nbThreads nbLocks stride wq fuel t l target (ll + 1)
    else false

/-- Spec-words definition (for the C2 comparison): wholly unrestricted reachability over the
wait-for relation (no lock is ever skipped), the recursion semantics the
spec's words give to the non-root levels of the oracle. -/
def reach_any (nbThreads nbLocks stride : Nat) (wq : Nat → Nat) :
    Nat → Nat → Nat → Nat → Bool
  | 0, _, _, _ => false
  | fuel + 1, t, target, ll =>
    if ll < nbLocks then
      if ll % NB_BITS_PER_CELL = 0 ∧ THREAD_HOLD_GROUP wq stride t ll = 0 then
        reach_any nbThreads nbLocks stride wq fuel t target (ll + NB_BITS_PER_CELL)
      else if THREAD_HOLD wq stride t ll = false then
        reach_any nbThreads nbLocks stride wq fuel t target (ll + 1)
      else if (List.range nbThreads).any (fun tt =>
          THREAD_HOLD wq stride tt ll && !(tt == t) &&
            (tt == target || reach_any nbThreads nbLocks stride wq fuel tt target 0)) then
        true
      else
        reach_any nbThreads nbLocks stride wq fuel t target (ll + 1)
    else false

/-- Spec-words definition (for the C2 comparison): the oracle as the spec describes it — the skip
lock is excluded at the root step only, and recursive steps enumerate
locks unrestricted (`reach_any`). -/
def is_looping_unres (nbThreads nbLocks stride : Nat) (wq : Nat → Nat) :
    Nat → Nat → Nat → Nat → Nat → Bool
  | 0, _, _, _, _ => false
  | fuel + 1, t, l, target, ll =>
    if ll < nbLocks then
      if ll % NB_BITS_PER_CELL = 0 ∧ THREAD_HOLD_GROUP wq stride t ll = 0 then
        is_looping_unres nbThreads nbLocks stride wq fuel t l target (ll + NB_BITS_PER_CELL)
      else if THREAD_HOLD wq stride t ll = false then
        is_looping_unres nbThreads nbLocks stride wq fuel t l target (ll + 1)
      else if ll = l then
        is_looping_unres nbThreads nbLocks stride wq fuel t l target (ll + 1)
      else if (List.range nbThreads).any (fun tt =>
          THREAD_HOLD wq stride tt ll && !(tt == t) &&
            (tt == target || reach_any nbThreads nbLocks stride wq fuel tt target 0)) then
        true
      else
        is_looping_unres nbThreads nbLocks stride wq fuel t l target (ll + 1)
    else false

/-- Occupancy matrix for the skip-propagation experiment: bits
`{W[0][1], W[1][0], W[1][1], W[2][0]}` (3 threads, 2 locks, stride 1):
cell 0 = 2, cell 2 = 3, cell 4 = 1.  Thread 0 can reach thread 2 only by
walking lock 1 to thread 1 and then lock 0 — the root skip lock — to
thread 2. -/
def wqSkip : Nat → Nat :=
  fun i => if i = 0 then 2 else if i = 2 then 3 else if i = 4 then 1 else 0

/-- Occupancy matrix for the recursion-restriction experiment: bits
`{W[0][0], W[0][1], W[1][0], W[2][1]}` (3 threads, 2 locks, stride 1):
cell 0 = 3, cell 2 = 1, cell 4 = 2.  With root skip lock 1, an oracle
whose recursive steps were unrestricted could walk lock 0 to thread 1,
back through lock 0 to thread 0, then lock 1 to thread 2; the source's
recursion excludes the lock it entered on, so it cannot. -/
def wqRec : Nat → Nat :=
  fun i => if i = 0 then 3 else if i = 2 then 1 else if i = 4 then 2 else 0

example : upper_multiple_of 2 64 = 1 := by decide

/-! ### Theorems -/

/-- Supporting lemma: the `m = 64` instantiation of `upper_multiple_of`
bounds its argument: `n ≤ 64 * upper_multiple_of n 64`. -/
theorem le_64_mul_upper_multiple_of (n : Nat) : n ≤ 64 * upper_multiple_of n 64 := by
  have key : ∀ fuel u l, 64 * l = u → n ≤ u + 64 * fuel →
      n ≤ 64 * upper_multiple_of_go n 64 u l fuel := by
    intro fuel
    induction fuel with
    | zero => intro u l hu hn; simpa [upper_multiple_of_go, hu] using hn
    | succ m ih =>
      intro u l hu hn
      rw [upper_multiple_of_go]
      by_cases h : u < n
      · rw [if_pos h]
        exact ih (u + 64) (l + 1) (by omega) (by omega)
      · rw [if_neg h]; omega
  exact key n 64 1 (by omega) (by omega)

/-- Supporting lemma: the row stride chosen by `main`
(`thread_stride = upper_multiple_of nb_locks 64`, used as a shift) leaves
room for every lock column: `nb_locks ≤ 64 * 2 ^ thread_stride`, so rows
of the packed matrix never alias. -/
theorem stride_adequate (nbLocks : Nat) :
    nbLocks ≤ 64 * 2 ^ upper_multiple_of nbLocks 64 := by
  have h1 := le_64_mul_upper_multiple_of nbLocks
  have h2 : upper_multiple_of nbLocks 64 ≤ 2 ^ upper_multiple_of nbLocks 64 :=
    Nat.le_of_lt (Nat.lt_two_pow _)
  calc nbLocks ≤ 64 * upper_multiple_of nbLocks 64 := h1
    _ ≤ 64 * 2 ^ upper_multiple_of nbLocks 64 := Nat.mul_le_mul_left _ h2

/-- Setting a thread's own bit makes `THREAD_HOLD` of that bit true
(regardless of stride: the or sets the tested bit in the tested cell). -/
theorem THREAD_HOLD_of_SET (wq : Nat → Nat) (stride t l : Nat) :
    THREAD_HOLD (THREAD_SET wq stride t l) stride t l = true := by
  simp [THREAD_HOLD, THREAD_SET, updateFn, Nat.testBit_or, Nat.one_shiftLeft,
    Nat.testBit_two_pow_self]

/-- Clearing a thread's own bit makes `THREAD_HOLD` of that bit false:
the and-mask `~(1 << (l % 64))` has the tested bit clear. -/
theorem THREAD_HOLD_of_CLEAR (wq : Nat → Nat) (stride t l : Nat) :
    THREAD_HOLD (THREAD_CLEAR wq stride t l) stride t l = false := by
  have hlt : l % NB_BITS_PER_CELL < 64 := Nat.mod_lt _ (by decide)
  simp only [THREAD_HOLD, THREAD_CLEAR, updateFn]
  rw [if_pos trivial, Nat.testBit_and, Nat.testBit_xor, Nat.testBit_two_pow_sub_one,
    Nat.one_shiftLeft, Nat.testBit_two_pow_self]
  simp [hlt]

/-- C1: for `R[t][l] = 0` a Matrix acquire runs under the global critical
section `m_lock`: it asserts `W[t][l]` is clear (aborting otherwise); if
some other thread `t'` holds-or-waits-for `l` and the cycle oracle
`is_looping(t', l, t)` answers true, it releases `m_lock` and returns
refused with the state unchanged and no pool primitive event; otherwise it
sets `W[t][l]`, releases `m_lock`, increments `R[t][l]` to 1 and only then
issues the blocking pool lock, returning ok. -/
theorem matrix_lock_fresh_spec (fuel nbThreads nbLocks stride : Nat) (σ : MState)
    (t l : Nat) (hR : σ.recurs (t * nbLocks + l) = 0) :
    (THREAD_HOLD σ.wq stride t l = true →
      matrix_lock fuel nbThreads nbLocks stride σ t l = (.abort, σ, [.mLock, .assertFail])) ∧
    (THREAD_HOLD σ.wq stride t l = false →
      ((∃ tt, tt < nbThreads ∧ tt ≠ t ∧ THREAD_HOLD σ.wq stride tt l = true ∧
          is_looping nbThreads nbLocks stride σ.wq fuel tt l t 0 = true) →
        matrix_lock fuel nbThreads nbLocks stride σ t l = (.refused, σ, [.mLock, .mUnlock])) ∧
      ((¬ ∃ tt, tt < nbThreads ∧ tt ≠ t ∧ THREAD_HOLD σ.wq stride tt l = true ∧
          is_looping nbThreads nbLocks stride σ.wq fuel tt l t 0 = true) →
        matrix_lock fuel nbThreads nbLocks stride σ t l =
          (.ok, ⟨THREAD_SET σ.wq stride t l, updateFn σ.recurs (t * nbLocks + l) 1⟩,
            [.mLock, .setW t l, .mUnlock, .incR t l, .pLock l]) ∧
        THREAD_HOLD (THREAD_SET σ.wq stride t l) stride t l = true)) := by
  have h0 : ¬ 0 < σ.recurs (t * nbLocks + l) := by omega
  refine ⟨fun hw => ?_, fun hw => ?_⟩
  · rw [matrix_lock, if_neg h0, if_pos hw]
  · have hiff : ((List.range nbThreads).any (fun tt =>
        THREAD_HOLD σ.wq stride tt l &&
          is_looping nbThreads nbLocks stride σ.wq fuel tt l t 0) = true) ↔
        ∃ tt, tt < nbThreads ∧ tt ≠ t ∧ THREAD_HOLD σ.wq stride tt l = true ∧
          is_looping nbThreads nbLocks stride σ.wq fuel tt l t 0 = true := by
      simp only [List.any_eq_true, List.mem_range, Bool.and_eq_true]
      constructor
      · rintro ⟨tt, htt, h1, h2⟩
        refine ⟨tt, htt, fun he => ?_, h1, h2⟩
        rw [he, hw] at h1
        cases h1
      · rintro ⟨tt, htt, _, h1, h2⟩
        exact ⟨tt, htt, h1, h2⟩
    have hwne : ¬ THREAD_HOLD σ.wq stride t l = true := by
      rw [hw]; exact Bool.false_ne_true
    constructor
    · intro hex
      rw [matrix_lock, if_neg h0, if_neg hwne, if_pos (hiff.mpr hex)]
    · intro hnex
      refine ⟨?_, THREAD_HOLD_of_SET σ.wq stride t l⟩
      rw [matrix_lock, if_neg h0, if_neg hwne, if_neg (fun h => hnex (hiff.mp h)), bumpR, hR]
      norm_num

/-- C1 witness: on the concrete S5 state, thread 0 acquiring lock 1 with
`R[0][1] = 0` and `W[0][1]` clear hits the refused branch. -/
theorem matrix_lock_fresh_spec_witness :
    matrix_lock 30 3 2 1 σS5 0 1 = (.refused, σS5, [.mLock, .mUnlock]) :=
  ((matrix_lock_fresh_spec 30 3 2 1 σS5 0 1 (by decide)).2 (by decide)).1
    ⟨1, by decide, by decide, by decide, by decide⟩

set_option maxRecDepth 8000 in
/-- C2 counterexample: the locks enumerated in recursive calls are NOT
unrestricted.  On the matrix `{W[0][0], W[0][1], W[1][0], W[2][1]}` the
spec-worded oracle (skip at the root step only, recursion unrestricted)
answers `reachable(0, 1, 2) = true` — walk lock 0 to thread 1, back
through the same lock 0 to thread 0, then lock 1 to thread 2 — while the
source's oracle answers false: the recursive call entered on lock 0 skips
lock 0, so thread 1 (which holds nothing else) is a dead end. -/
theorem is_looping_recursion_not_unrestricted :
    is_looping 3 2 1 wqRec 30 0 1 2 0 = false ∧
    is_looping_unres 3 2 1 wqRec 30 0 1 2 0 = true := by
  refine ⟨by decide, by decide⟩

set_option maxRecDepth 8000 in
/-- C2 amended: the skip is per-step, not per-query.  The root skip lock
is excluded only at the root step and does not propagate — on `wqSkip`
the source's oracle traverses the root-skip lock at depth 1 and answers
true where the propagating-skip foil answers false, and the same query
skipped on the traversed lock shows the root exclusion is effective.
But recursive calls are not unrestricted either: each recursive level
excludes exactly the lock it entered on, so on `wqRec` the source's
oracle answers false where the unrestricted-recursion oracle answers
true. -/
theorem is_looping_skip_root_only :
    is_looping 3 2 1 wqSkip 30 0 0 2 0 = true ∧
    is_looping_unres 3 2 1 wqSkip 30 0 0 2 0 = true ∧
    is_looping_prop_skip 3 2 1 wqSkip 30 0 0 2 0 = false ∧
    is_looping 3 2 1 wqSkip 30 0 1 2 0 = false ∧
    is_looping_unres 3 2 1 wqSkip 30 0 1 2 0 = false ∧
    is_looping 3 2 1 wqRec 30 0 1 2 0 = false ∧
    is_looping_prop_skip 3 2 1 wqRec 30 0 1 2 0 = false := by
  refine ⟨by decide, by decide, by decide, by decide, by decide, by decide, by decide⟩

/-- Supporting lemma: on `wqRec` the query `(0, skip 1, target 2)` is
false at every fuel — from thread 0 the only non-skipped column is lock
0, and the recursive call entered on lock 0 has nowhere to go — so the
refutation above is not a fuel artifact. -/
theorem is_looping_wqRec_false_any_fuel (f : Nat) :
    is_looping 3 2 1 wqRec f 0 1 2 0 = false ∧
    is_looping 3 2 1 wqRec f 0 1 2 1 = false ∧
    is_looping 3 2 1 wqRec f 0 1 2 2 = false ∧
    is_looping 3 2 1 wqRec f 1 0 2 0 = false ∧
    is_looping 3 2 1 wqRec f 1 0 2 1 = false ∧
    is_looping 3 2 1 wqRec f 1 0 2 2 = false := by
  induction f with
  | zero => exact ⟨rfl, rfl, rfl, rfl, rfl, rfl⟩
  | succ n ih =>
    obtain ⟨h0, h1, h2, g0, g1, g2⟩ := ih
    have hany : ((List.range 3).any (fun tt =>
        THREAD_HOLD wqRec 1 tt 0 && !(tt == 0) &&
          (tt == 2 || is_looping 3 2 1 wqRec n tt 0 2 0))) = false := by
      simp [List.range_succ, g0, show THREAD_HOLD wqRec 1 2 0 = false by decide]
    refine ⟨?_, h2, rfl, g1, g2, rfl⟩
    rw [is_looping, if_pos (by decide : (0 : Nat) < 2)]
    rw [if_neg (by decide : ¬ ((0 : Nat) % NB_BITS_PER_CELL = 0 ∧
      THREAD_HOLD_GROUP wqRec 1 0 0 = 0))]
    rw [if_neg (by decide : ¬ THREAD_HOLD wqRec 1 0 0 = false)]
    rw [if_neg (by decide : ¬ (0 : Nat) = 1)]
    rw [if_neg (by rw [hany]; exact Bool.false_ne_true)]
    exact h1

/-- Supporting lemma: on the S5 matrix the query `reachable(2, 1, 0)` is
false at every fuel (thread 2's only occupied column is the skipped lock
1), so the refutation below is not a fuel artifact. -/
theorem is_looping_S5_from2_false (fuel : Nat) :
    is_looping 3 2 1 wqS5 fuel 2 1 0 0 = false := by
  have key : ∀ f, is_looping 3 2 1 wqS5 f 2 1 0 0 = false ∧
      is_looping 3 2 1 wqS5 f 2 1 0 1 = false ∧
      is_looping 3 2 1 wqS5 f 2 1 0 2 = false := by
    intro f
    induction f with
    | zero => exact ⟨rfl, rfl, rfl⟩
    | succ n ih => exact ⟨ih.2.1, ih.2.2, rfl⟩
  exact (key fuel).1

/-- C3 counterexample: with W seeded as S5
(`{W[0][0], W[1][0], W[1][1], W[2][1]}`), the query `reachable(2, 1, 0)`
returns false, not true: thread 2 holds only lock 1, which is exactly the
lock the query must skip at its root step. -/
theorem is_looping_S5_start2_is_false :
    is_looping 3 2 1 wqS5 30 2 1 0 0 = false := by decide

/-- C3 amended: on the S5 matrix the acquire of lock 1 by thread 0 is
indeed refused, but the oracle query that fires is `reachable(1, 1, 0)`
(thread 1 also claims lock 1 and reaches thread 0 through lock 0), while
`reachable(2, 1, 0)` is false. -/
theorem matrix_lock_S5_refused :
    is_looping 3 2 1 wqS5 30 1 1 0 0 = true ∧
    is_looping 3 2 1 wqS5 30 2 1 0 0 = false ∧
    matrix_lock 30 3 2 1 σS5 0 1 = (.refused, σS5, [.mLock, .mUnlock]) := by
  refine ⟨by decide, by decide, rfl⟩

/-- Effect of a `matrix_lock` call on the recursion counter of its own
(thread, lock) pair (no 32-bit wrap by hypothesis): ok bumps it by one,
refused or abort leave it unchanged. -/
theorem matrix_lock_recurs_effect (fuel nbThreads nbLocks stride : Nat) (σ : MState)
    (t l : Nat) (hov : σ.recurs (t * nbLocks + l) + 1 < 2 ^ 32) :
    ((matrix_lock fuel nbThreads nbLocks stride σ t l).2.1).recurs (t * nbLocks + l) =
      (if (matrix_lock fuel nbThreads nbLocks stride σ t l).1 = LockRes.ok
       then σ.recurs (t * nbLocks + l) + 1 else σ.recurs (t * nbLocks + l)) := by
  rw [matrix_lock]
  by_cases h0 : 0 < σ.recurs (t * nbLocks + l)
  · rw [if_pos h0]
    simp [bumpR, updateFn]
    omega
  · rw [if_neg h0]
    by_cases hw : THREAD_HOLD σ.wq stride t l = true
    · rw [if_pos hw]; simp
    · rw [if_neg hw]
      by_cases hc : (List.range nbThreads).any (fun tt =>
          THREAD_HOLD σ.wq stride tt l &&
            is_looping nbThreads nbLocks stride σ.wq fuel tt l t 0) = true
      · rw [if_pos hc]; simp
      · rw [if_neg hc]
        simp [bumpR, updateFn]
        omega

/-- Effect of a `matrix_unlock` call on the recursion counter of its own
(thread, lock) pair: with a positive in-range counter, it decrements. -/
theorem matrix_unlock_recurs_effect (nbLocks stride : Nat) (σ : MState) (t l : Nat)
    (h1 : 0 < σ.recurs (t * nbLocks + l)) (h2 : σ.recurs (t * nbLocks + l) < 2 ^ 32) :
    ((matrix_unlock nbLocks stride σ t l).1).recurs (t * nbLocks + l) =
      σ.recurs (t * nbLocks + l) - 1 := by
  rw [matrix_unlock]
  by_cases hpos : 0 < (σ.recurs (t * nbLocks + l) + (2 ^ 32 - 1)) % 2 ^ 32
  · rw [if_pos hpos]; simp [updateFn]; omega
  · rw [if_neg hpos]; simp [updateFn]; omega

/-- Balance invariant of an operation sequence: the recursion counter
moves exactly by successful acquires minus releases. -/
theorem runOps_balance (fuel nbThreads nbLocks stride t l : Nat) (ops : List MOp) :
    ∀ σ : MState, ValidOps fuel nbThreads nbLocks stride t l σ ops = true →
    (runOps fuel nbThreads nbLocks stride t l σ ops).1.recurs (t * nbLocks + l) +
        (runOps fuel nbThreads nbLocks stride t l σ ops).2.2 =
      σ.recurs (t * nbLocks + l) +
        (runOps fuel nbThreads nbLocks stride t l σ ops).2.1 := by
  induction ops with
  | nil => intro σ _; simp [runOps]
  | cons op ops ih =>
    cases op with
    | acq =>
      intro σ hv
      rw [ValidOps, Bool.and_eq_true, decide_eq_true_eq] at hv
      have heff := matrix_lock_recurs_effect fuel nbThreads nbLocks stride σ t l hv.1
      have hrest := ih _ hv.2
      rw [runOps]
      dsimp only
      by_cases hok : (matrix_lock fuel nbThreads nbLocks stride σ t l).1 = LockRes.ok
      · rw [if_pos hok] at heff
        rw [if_pos hok]
        omega
      · rw [if_neg hok] at heff
        rw [if_neg hok]
        omega
    | rel =>
      intro σ hv
      rw [ValidOps, Bool.and_eq_true, Bool.and_eq_true, decide_eq_true_eq,
        decide_eq_true_eq] at hv
      have heff := matrix_unlock_recurs_effect nbLocks stride σ t l hv.1.1 hv.1.2
      have hrest := ih _ hv.2
      have hp := hv.1.1
      rw [runOps]
      dsimp only
      omega

/-- C4: Matrix-policy re-entrancy.  (i) With `R[t][l] > 0` an acquire
returns ok, bumps only the recursion counter, performs no `m_lock`, `W`
or pool action, and its result does not depend on (nor change) `W`.
(ii) A release decrements `R[t][l]`; while the result stays positive
nothing else happens; (iii) on the transition to 0 it clears `W[t][l]`
under `m_lock` and releases the pool primitive.  (iv) Consequently, over
any valid operation sequence that starts and ends with `R[t][l] = 0`, the
number of acquires that returned ok equals the number of releases. -/
theorem matrix_reentrancy (fuel nbThreads nbLocks stride t l : Nat) :
    (∀ (wq r : Nat → Nat), 0 < r (t * nbLocks + l) → r (t * nbLocks + l) + 1 < 2 ^ 32 →
      matrix_lock fuel nbThreads nbLocks stride ⟨wq, r⟩ t l =
        (.ok, ⟨wq, updateFn r (t * nbLocks + l) (r (t * nbLocks + l) + 1)⟩, [.incR t l])) ∧
    (∀ (wq r : Nat → Nat), 1 < r (t * nbLocks + l) → r (t * nbLocks + l) < 2 ^ 32 →
      matrix_unlock nbLocks stride ⟨wq, r⟩ t l =
        (⟨wq, updateFn r (t * nbLocks + l) (r (t * nbLocks + l) - 1)⟩, [.decR t l])) ∧
    (∀ (wq r : Nat → Nat), r (t * nbLocks + l) = 1 →
      matrix_unlock nbLocks stride ⟨wq, r⟩ t l =
        (⟨THREAD_CLEAR wq stride t l, updateFn r (t * nbLocks + l) 0⟩,
          [.decR t l, .mLock, .clearW t l, .mUnlock, .pUnlock l]) ∧
      THREAD_HOLD (THREAD_CLEAR wq stride t l) stride t l = false) ∧
    (∀ (ops : List MOp) (σ : MState),
      ValidOps fuel nbThreads nbLocks stride t l σ ops = true →
      σ.recurs (t * nbLocks + l) = 0 →
      (runOps fuel nbThreads nbLocks stride t l σ ops).1.recurs (t * nbLocks + l) = 0 →
      (runOps fuel nbThreads nbLocks stride t l σ ops).2.1 =
        (runOps fuel nbThreads nbLocks stride t l σ ops).2.2) := by
  refine ⟨?_, ?_, ?_, ?_⟩
  · intro wq r h1 h2
    rw [matrix_lock, if_pos h1, bumpR, Nat.mod_eq_of_lt h2]
  · intro wq r h1 h2
    have hdec : (r (t * nbLocks + l) + (2 ^ 32 - 1)) % 2 ^ 32 =
        r (t * nbLocks + l) - 1 := by omega
    rw [matrix_unlock, if_pos (by omega : 0 < (r (t * nbLocks + l) + (2 ^ 32 - 1)) % 2 ^ 32),
      hdec]
  · intro wq r h1
    have hdec : (r (t * nbLocks + l) + (2 ^ 32 - 1)) % 2 ^ 32 = 0 := by omega
    refine ⟨?_, THREAD_HOLD_of_CLEAR wq stride t l⟩
    rw [matrix_unlock, if_neg (by omega : ¬ 0 < (r (t * nbLocks + l) + (2 ^ 32 - 1)) % 2 ^ 32),
      hdec]
  · intro ops σ hv h0 hend
    have := runOps_balance fuel nbThreads nbLocks stride t l ops σ hv
    omega

/-- C4 witness: on the empty state, thread 0 on lock 1 with counter 1
re-enters (ok, counter 2, single `incR` event), and the four-operation
sequence acquire/acquire/release/release is valid, returns the counter
to 0 and balances 2 successful acquires against 2 releases. -/
theorem matrix_reentrancy_witness :
    matrix_lock 30 3 2 1 ⟨wqS5, fun _ => 1⟩ 0 1 =
      (.ok, ⟨wqS5, updateFn (fun _ => 1) 1 2⟩, [.incR 0 1]) ∧
    (runOps 30 3 2 1 0 1 σEmpty [.acq, .acq, .rel, .rel]).2.1 =
      (runOps 30 3 2 1 0 1 σEmpty [.acq, .acq, .rel, .rel]).2.2 :=
  ⟨(matrix_reentrancy 30 3 2 1 0 1).1 wqS5 (fun _ => 1) (by decide) (by decide),
   (matrix_reentrancy 30 3 2 1 0 1).2.2.2 [.acq, .acq, .rel, .rel] σEmpty
     (by decide) (by decide) (by decide)⟩

/-- C5 counterexample: with `C = 0` (`nb_claimed = 0`) the very first step
of a worker iteration, `rand() % nb_claimed`, is a division by zero: the
iteration is not well-defined and `jobs_started` does not grow. -/
theorem worker_iteration_c0_undefined :
    workerIteration 0 0 100 1000 (fun _ => 0) (fun _ => true) 0 0 = none := rfl

/-- C5 amended: `C = 0` makes every iteration hit `rand() % 0`
(undefined), and so does `S_max = 0` on any fully-acquired iteration —
including the empty one, so `C = 0 ∧ S_max = 0` is doubly undefined
rather than a fast loop.  The well-defined degenerate configuration is
`C = 1` with `S_max ≥ 1`: every iteration draws `k = 0` locks, performs
no lock traffic, bumps `jobs_started` once and never bumps `failures`
(`t = 0` is degenerate but fine: no worker runs any iteration). -/
theorem worker_iteration_degenerate (t nbLocks maxSleep r p : Nat)
    (rng : Nat → Nat) (pol : Nat → Bool) :
    workerIteration t 0 nbLocks maxSleep rng pol r p = none ∧
    (maxSleep = 0 → workerIteration t 1 nbLocks maxSleep rng pol r p = none) ∧
    (0 < maxSleep →
      workerIteration t 1 nbLocks maxSleep rng pol r p =
        some ([.incTrys, .sleepCall (rng (r + 1) % maxSleep)], r + 2, p) ∧
      hasLockTraffic [TraceEv.incTrys, .sleepCall (rng (r + 1) % maxSleep)] = false ∧
      countT [TraceEv.incTrys, .sleepCall (rng (r + 1) % maxSleep)] = 1 ∧
      countE [TraceEv.incTrys, .sleepCall (rng (r + 1) % maxSleep)] = 0) := by
  refine ⟨rfl, ?_, ?_⟩
  · intro hms
    subst hms
    simp [workerIteration, claimLoop, Nat.mod_one]
  · intro hms
    have hms0 : ¬ maxSleep = 0 := by omega
    refine ⟨?_, rfl, rfl, rfl⟩
    simp [workerIteration, claimLoop, Nat.mod_one, hms0]

/-- C5 witness: the two guarded branches of the amended statement at
concrete inputs: `S_max = 0` is undefined, `C = 1, S_max = 1000` yields
the no-traffic iteration. -/
theorem worker_iteration_degenerate_witness :
    workerIteration 0 1 100 0 (fun _ => 0) (fun _ => true) 0 0 = none ∧
    workerIteration 0 1 100 1000 (fun _ => 0) (fun _ => true) 0 0 =
      some ([.incTrys, .sleepCall 0], 2, 0) :=
  ⟨(worker_iteration_degenerate 0 100 0 0 0 (fun _ => 0) (fun _ => true)).2.1 rfl,
   ((worker_iteration_degenerate 0 100 1000 0 0 (fun _ => 0) (fun _ => true)).2.2
      (by norm_num)).1⟩

/-- C6: the timespec `timed_lock` builds always denotes `now + Δ`
nanoseconds in total value, but it is not always well-formed: the
nanosecond field `now.tv_usec * 1000 + Δ` is never carried into the
seconds field, so whenever it reaches `10^9` the deadline passed to
`pthread_mutex_timedlock` is invalid (POSIX `EINVAL`).  At
`tv_usec = 999999` with the default `Δ = 10^6` the field is
`1000999000`. -/
theorem timed_lock_deadline_unnormalized :
    timed_lock_deadline ⟨0, 999999⟩ 1000000 = ⟨0, 1000999000⟩ ∧
    Timespec.wellFormed (timed_lock_deadline ⟨0, 999999⟩ 1000000) = false ∧
    (∀ (now : Timeval) (d : Nat),
      Timespec.toNanos (timed_lock_deadline now d) = Timeval.toNanos now + d) ∧
    (∀ (now : Timeval) (d : Nat),
      Timespec.wellFormed (timed_lock_deadline now d) = true ↔
        now.usec * 1000 + d < 1000000000) := by
  refine ⟨rfl, rfl, ?_, ?_⟩
  · intro now d
    simp [Timespec.toNanos, Timeval.toNanos, timed_lock_deadline]
    ring
  · intro now d
    simp [Timespec.wellFormed, timed_lock_deadline]

/-- C7: the `-m` guard `assert(method <= NB_ELEMS(methods))` uses `<=`
where the table has `NB_ELEMS(methods) = 3` entries: the out-of-range
policy value 3 passes the guard (and `main` then reads `methods[3]`),
while values above 3 are rejected. -/
theorem method_guard_off_by_one :
    method_assert_guard 3 = true ∧ methods.length = 3 ∧ ¬ 3 < methods.length ∧
    method_assert_guard 4 = false := by decide

/-- C8: the allocation check in `main` tests `pthread_ids`, `locks` and
`thread_wq` but not `recurs_count`: if only the `recurs_count` calloc
fails the program does not exit, while a failure of any tested pointer
does exit. -/
theorem alloc_check_misses_recurs_count :
    alloc_check_exits false false true false = false ∧
    alloc_check_exits true false false false = true ∧
    alloc_check_exits false true false false = true ∧
    alloc_check_exits false false false true = true := by decide

/-- C9 counterexample: in the order `main` actually executes (2 workers,
1 second), the results line is printed before `quit` is set and before
any join, so it is not printed "only after the join" as claimed. -/
theorem main_trace_print_before_quit :
    idxOfEv .printResults (main_trace 2 1) < idxOfEv .setQuit (main_trace 2 1) ∧
    idxOfEv .setQuit (main_trace 2 1) < idxOfEv (.joinThread 0) (main_trace 2 1) ∧
    ¬ idxOfEv (.joinThread 1) (main_trace 2 1) < idxOfEv .printResults (main_trace 2 1) := by
  decide

/-- Supporting lemma: `main_trace` written as a head plus tail. -/
theorem main_trace_cons (T D : Nat) :
    main_trace T D = .banner :: (((List.range T).map HarnessEv.spawn) ++
      ([.sleepSecs D, .printResults, .printExiting, .setQuit] ++
        ((List.range T).map HarnessEv.joinThread))) := by
  simp [main_trace]

/-- Supporting lemma: the spawn block has length `T`. -/
theorem main_trace_spawns_length (T : Nat) :
    ((List.range T).map HarnessEv.spawn).length = T := by simp

/-- C9 amended: after the banner, `main` spawns the `T` workers, sleeps
`D` seconds, prints the results line, prints the exiting note, sets
`quit`, and only then joins the workers: the positions in the trace are
banner 0, spawn `t` at `1 + t`, sleep at `1 + T`, results at `2 + T`,
exiting note at `3 + T`, quit at `4 + T`, join `t` at `5 + T + t`, and
nothing else (length `5 + 2T`). -/
theorem main_trace_order (T D t : Nat) (ht : t < T) :
    (main_trace T D)[0]? = some .banner ∧
    (main_trace T D)[1 + t]? = some (.spawn t) ∧
    (main_trace T D)[1 + T]? = some (.sleepSecs D) ∧
    (main_trace T D)[2 + T]? = some .printResults ∧
    (main_trace T D)[3 + T]? = some .printExiting ∧
    (main_trace T D)[4 + T]? = some .setQuit ∧
    (main_trace T D)[5 + T + t]? = some (.joinThread t) ∧
    (main_trace T D).length = 5 + 2 * T := by
  refine ⟨?_, ?_, ?_, ?_, ?_, ?_, ?_, ?_⟩
  · rw [main_trace_cons, List.getElem?_cons_zero]
  · rw [main_trace_cons, show 1 + t = t + 1 by omega, List.getElem?_cons_succ,
      List.getElem?_append_left (by simp [ht]), List.getElem?_map, List.getElem?_range ht]
    rfl
  · rw [main_trace_cons, show 1 + T = T + 1 by omega, List.getElem?_cons_succ,
      List.getElem?_append_right (by simp), main_trace_spawns_length, show T - T = 0 by omega,
      List.getElem?_append_left (by simp)]
    rfl
  · rw [main_trace_cons, show 2 + T = (T + 1) + 1 by omega, List.getElem?_cons_succ,
      List.getElem?_append_right (by simp), main_trace_spawns_length,
      show T + 1 - T = 1 by omega, List.getElem?_append_left (by simp)]
    rfl
  · rw [main_trace_cons, show 3 + T = (T + 2) + 1 by omega, List.getElem?_cons_succ,
      List.getElem?_append_right (by simp), main_trace_spawns_length,
      show T + 2 - T = 2 by omega, List.getElem?_append_left (by simp)]
    rfl
  · rw [main_trace_cons, show 4 + T = (T + 3) + 1 by omega, List.getElem?_cons_succ,
      List.getElem?_append_right (by simp), main_trace_spawns_length,
      show T + 3 - T = 3 by omega, List.getElem?_append_left (by simp)]
    rfl
  · rw [main_trace_cons, show 5 + T + t = (T + (4 + t)) + 1 by omega, List.getElem?_cons_succ,
      List.getElem?_append_right (by simp), main_trace_spawns_length,
      show T + (4 + t) - T = 4 + t by omega, List.getElem?_append_right (by simp),
      show 4 + t = t + 4 by omega]
    simp [List.getElem?_range ht]
  · simp [main_trace]
    omega

/-- C9 amended witness: the order facts at `T = 2`, `D = 1`, `t = 0`. -/
theorem main_trace_order_witness :
    (main_trace 2 1)[0]? = some .banner ∧
    (main_trace 2 1)[1 + 0]? = some (.spawn 0) ∧
    (main_trace 2 1)[1 + 2]? = some (.sleepSecs 1) ∧
    (main_trace 2 1)[2 + 2]? = some .printResults ∧
    (main_trace 2 1)[3 + 2]? = some .printExiting ∧
    (main_trace 2 1)[4 + 2]? = some .setQuit ∧
    (main_trace 2 1)[5 + 2 + 0]? = some (.joinThread 0) ∧
    (main_trace 2 1).length = 5 + 2 * 2 :=
  main_trace_order 2 1 0 (by norm_num)

/-! ### Counter lemmas for the worker traces -/

/-- Try-count of an append. -/
theorem countT_append (a b : List TraceEv) : countT (a ++ b) = countT a + countT b := by
  simp [countT]

/-- Error-count of an append. -/
theorem countE_append (a b : List TraceEv) : countE (a ++ b) = countE a + countE b := by
  simp [countE]

/-- Try-count of a cons. -/
theorem countT_cons (x : TraceEv) (es : List TraceEv) :
    countT (x :: es) = evT x + countT es := by
  simp [countT]

/-- Error-count of a cons. -/
theorem countE_cons (x : TraceEv) (es : List TraceEv) :
    countE (x :: es) = evE x + countE es := by
  simp [countE]

/-- Unlock calls touch neither counter. -/
theorem countT_unlocks (t : Nat) (cl : List Nat) :
    countT (cl.map (fun lk => TraceEv.unlockCall t lk)) = 0 := by
  induction cl with
  | nil => rfl
  | cons a cl ih => simp [countT_cons, ih, evT]

/-- Unlock calls touch neither counter. -/
theorem countE_unlocks (t : Nat) (cl : List Nat) :
    countE (cl.map (fun lk => TraceEv.unlockCall t lk)) = 0 := by
  induction cl with
  | nil => rfl
  | cons a cl ih => simp [countE_cons, ih, evE]

/-- The events of one pass of the claim loop bump `nb_trys` never and
`nb_errs` at most once. -/
theorem claimLoop_counts (t nbLocks : Nat) (rng : Nat → Nat) (pol : Nat → Bool) :
    ∀ (n r p : Nat) (claimed : List Nat) evs cl r' p' full,
      claimLoop t nbLocks rng pol n r p claimed = some (evs, cl, r', p', full) →
      countT evs = 0 ∧ countE evs ≤ 1 := by
  intro n
  induction n with
  | zero =>
    intro r p claimed evs cl r' p' full h
    rw [claimLoop] at h
    simp only [Option.some.injEq, Prod.mk.injEq] at h
    obtain ⟨h1, -⟩ := h
    subst h1
    exact ⟨rfl, by norm_num [countE]⟩
  | succ n ih =>
    intro r p claimed evs cl r' p' full h
    rw [claimLoop] at h
    split at h
    · cases h
    · split at h
      · split at h
        · cases h
        · rename_i evs0 cl0 r0 p0 full0 heq
          simp only [Option.some.injEq, Prod.mk.injEq] at h
          obtain ⟨h1, -⟩ := h
          subst h1
          obtain ⟨hT, hE⟩ := ih _ _ _ _ _ _ _ _ heq
          rw [countT_cons, countE_cons, hT]
          exact ⟨rfl, by simpa [evE] using hE⟩
      · simp only [Option.some.injEq, Prod.mk.injEq] at h
        obtain ⟨h1, -⟩ := h
        subst h1
        exact ⟨rfl, by norm_num [countE, countE_cons, evE]⟩

/-- Shape of any worker-iteration block: it opens with the `nb_trys`
bump and the remaining events bump `nb_trys` never and `nb_errs` at most
once. -/
theorem workerIteration_shape (t nbClaimed nbLocks maxSleep : Nat) (rng : Nat → Nat)
    (pol : Nat → Bool) (r p : Nat) (evs : List TraceEv) (r' p' : Nat)
    (h : workerIteration t nbClaimed nbLocks maxSleep rng pol r p = some (evs, r', p')) :
    ∃ rest, evs = .incTrys :: rest ∧ countT rest = 0 ∧ countE rest ≤ 1 := by
  rw [workerIteration] at h
  split at h
  · cases h
  · split at h
    · cases h
    · rename_i evs0 claimed r0 p0 full heq
      obtain ⟨hT, hE⟩ := claimLoop_counts t nbLocks rng pol _ _ _ _ _ _ _ _ _ heq
      split at h
      · split at h
        · cases h
        · simp only [Option.some.injEq, Prod.mk.injEq] at h
          obtain ⟨h1, -⟩ := h
          subst h1
          refine ⟨_, rfl, ?_, ?_⟩
          · rw [countT_append, countT_append, hT, countT_unlocks]
            rfl
          · rw [countE_append, countE_append, countE_unlocks]
            simpa [countE] using hE
      · simp only [Option.some.injEq, Prod.mk.injEq] at h
        obtain ⟨h1, -⟩ := h
        subst h1
        refine ⟨_, rfl, ?_, ?_⟩
        · rw [countT_append, hT, countT_unlocks]
        · rw [countE_append, countE_unlocks]
          simpa using hE

/-! ### Prefix goodness and interleavings -/

/-- Any list is a prefix of itself. -/
theorem isPre_refl {α : Type} (l : List α) : IsPre l l := ⟨[], by simp⟩

/-- The empty list is a prefix of anything. -/
theorem isPre_nil {α : Type} (l : List α) : IsPre [] l := ⟨l, rfl⟩

/-- A prefix of `a ++ b` is a prefix of `a` or is `a` followed by a
prefix of `b`. -/
theorem isPre_append_cases {α : Type} :
    ∀ (a p b : List α), IsPre p (a ++ b) → IsPre p a ∨ ∃ q, IsPre q b ∧ p = a ++ q := by
  intro a
  induction a with
  | nil =>
    intro p b h
    exact Or.inr ⟨p, h, by simp⟩
  | cons x a ih =>
    intro p b h
    cases p with
    | nil => exact Or.inl (isPre_nil _)
    | cons y p =>
      obtain ⟨q, hq⟩ := h
      rw [List.cons_append, List.cons_append] at hq
      injection hq with h1 h2
      subst h1
      rcases ih p b ⟨q, h2⟩ with hl | ⟨q', hq', rfl⟩
      · obtain ⟨w, hw⟩ := hl
        exact Or.inl ⟨w, by rw [List.cons_append, hw]⟩
      · exact Or.inr ⟨q', hq', by rw [List.cons_append]⟩

/-- Goodness at the full prefix: the error count never exceeds the try
count plus the credit. -/
theorem goodC_total (c : Int) (b : List TraceEv) (h : GoodC c b) :
    (countE b : Int) ≤ c + countT b :=
  h b (isPre_refl b)

/-- An iteration block is prefix-good with no credit: it opens with the
try bump and contains at most one error bump. -/
theorem goodC_of_block (rest : List TraceEv) (_hT : countT rest = 0) (hE : countE rest ≤ 1) :
    GoodC 0 (.incTrys :: rest) := by
  intro pfx hpre
  cases pfx with
  | nil => simp [countE, countT]
  | cons y pfx =>
    obtain ⟨q, hq⟩ := hpre
    rw [List.cons_append] at hq
    injection hq with h1 h2
    subst h1
    have hEp : countE pfx ≤ countE rest := by
      rw [← h2, countE_append]
      omega
    rw [countE_cons, countT_cons]
    have : countE pfx ≤ 1 := le_trans hEp hE
    push_cast
    simp [evE, evT]
    omega

/-- Concatenating prefix-good zero-credit blocks stays prefix-good. -/
theorem goodC_flatten (blocks : List (List TraceEv))
    (hb : ∀ b ∈ blocks, GoodC 0 b) : GoodC 0 blocks.flatten := by
  induction blocks with
  | nil =>
    intro pfx hpre
    obtain ⟨q, hq⟩ := hpre
    rw [List.flatten_nil] at hq
    have : pfx = [] := by
      cases pfx with
      | nil => rfl
      | cons y p => cases hq
    subst this
    simp [countE, countT]
  | cons b bs ih =>
    intro pfx hpre
    rw [List.flatten_cons] at hpre
    have hbgood : GoodC 0 b := hb b (by simp)
    have hbs : ∀ x ∈ bs, GoodC 0 x := fun x hx => hb x (by simp [hx])
    rcases isPre_append_cases b pfx bs.flatten hpre with hl | ⟨q, hq, rfl⟩
    · exact hbgood pfx hl
    · have h1 := goodC_total 0 b hbgood
      have h2 := ih hbs q hq
      rw [countE_append, countT_append]
      push_cast at h1 h2 ⊢
      omega

/-- Every worker trace — a concatenation of iteration blocks — is
prefix-good with no credit. -/
theorem isWorkerTrace_goodC (tr : List TraceEv) (h : IsWorkerTrace tr) : GoodC 0 tr := by
  obtain ⟨blocks, hb, rfl⟩ := h
  apply goodC_flatten
  intro b hbmem
  obtain ⟨t, nC, nL, mS, rng, pol, r, p, r', p', heq⟩ := hb b hbmem
  obtain ⟨rest, hrest, hT, hE⟩ := workerIteration_shape _ _ _ _ _ _ _ _ _ _ _ heq
  subst hrest
  exact goodC_of_block rest hT hE

/-- `getD` after `set` at the same position. -/
theorem getD_set_eq {α : Type} :
    ∀ (l : List α) (i : Nat) (a d : α), i < l.length → (l.set i a).getD i d = a := by
  intro l
  induction l with
  | nil => intro i a d h; cases h
  | cons x l ih =>
    intro i a d h
    cases i with
    | zero => rfl
    | succ i => exact ih i a d (by simpa using h)

/-- `getD` after `set` at a different position. -/
theorem getD_set_ne {α : Type} :
    ∀ (l : List α) (i j : Nat) (a d : α), j ≠ i → (l.set i a).getD j d = l.getD j d := by
  intro l
  induction l with
  | nil => intro i j a d _; rfl
  | cons x l ih =>
    intro i j a d hne
    cases i with
    | zero =>
      cases j with
      | zero => exact absurd rfl hne
      | succ j => rfl
    | succ i =>
      cases j with
      | zero => rfl
      | succ j => exact ih i j a d (fun h => hne (by rw [h]))

/-- Sum after a `set`: the old entry is exchanged for the new value. -/
theorem sum_set_add :
    ∀ (cs : List Int) (i : Nat) (v : Int), i < cs.length →
      (cs.set i v).sum + cs.getD i 0 = cs.sum + v := by
  intro cs
  induction cs with
  | nil => intro i v h; cases h
  | cons c cs ih =>
    intro i v h
    cases i with
    | zero => simp [List.getD]; omega
    | succ i =>
      have := ih i v (by simpa using h)
      simp only [List.set_cons_succ, List.sum_cons]
      have hgd : (c :: cs).getD (i + 1) 0 = cs.getD i 0 := rfl
      rw [hgd]
      omega

/-- A list whose entries are all nonnegative has nonnegative sum. -/
theorem sum_nonneg_getD :
    ∀ cs : List Int, (∀ i, i < cs.length → 0 ≤ cs.getD i 0) → 0 ≤ cs.sum := by
  intro cs
  induction cs with
  | nil => intro _; simp
  | cons c cs ih =>
    intro h
    have h0 : (0 : Int) ≤ c := h 0 (by simp)
    have hrest : 0 ≤ cs.sum := ih (fun i hi => h (i + 1) (by simpa using hi))
    simp only [List.sum_cons]
    omega

/-- Dropping the head of a good sequence costs its balance as credit. -/
theorem goodC_cons_tail (c : Int) (x : TraceEv) (l : List TraceEv) (h : GoodC c (x :: l)) :
    GoodC (c + ((evT x : Int) - evE x)) l := by
  intro pfx hpre
  obtain ⟨q, hq⟩ := hpre
  have := h (x :: pfx) ⟨q, by rw [List.cons_append, hq]⟩
  rw [countE_cons, countT_cons] at this
  push_cast at this ⊢
  omega

/-- All the credits of a good family are nonnegative (take the empty
prefix), hence so is their sum. -/
theorem goodC_family_sum_nonneg (cs : List Int) (ss : List (List TraceEv))
    (hlen : cs.length = ss.length)
    (hg : ∀ i, i < ss.length → GoodC (cs.getD i 0) (ss.getD i [])) : 0 ≤ cs.sum := by
  apply sum_nonneg_getD
  intro i hi
  have := hg i (hlen ▸ hi) [] (isPre_nil _)
  simpa [countE, countT] using this

/-- Interleaving preserves prefix goodness: a shuffle of sequences that
are good for credits `cs` is good for the total credit `cs.sum`. -/
theorem shuffle_goodC {ss : List (List TraceEv)} {out : List TraceEv}
    (hs : Shuffle ss out) :
    ∀ cs : List Int, cs.length = ss.length →
      (∀ i, i < ss.length → GoodC (cs.getD i 0) (ss.getD i [])) →
      GoodC cs.sum out := by
  induction hs with
  | done ss hnil =>
    intro cs hlen hg pfx hpre
    obtain ⟨q, hq⟩ := hpre
    have hp : pfx = [] := by
      cases pfx with
      | nil => rfl
      | cons y p => cases hq
    subst hp
    have := goodC_family_sum_nonneg cs ss hlen hg
    simpa [countE, countT] using this
  | step ss i x rest out hget hshuf ih =>
    intro cs hlen hg
    have hiss : i < ss.length := by
      by_contra hcon
      rw [List.get?_eq_none.mpr (Nat.le_of_not_lt hcon)] at hget
      cases hget
    have hgetD : ss.getD i [] = x :: rest := by
      rw [List.getD_eq_get?, hget]
      rfl
    have hsumnn := goodC_family_sum_nonneg cs ss hlen hg
    have hilen : i < cs.length := by omega
    have htail : GoodC (cs.getD i 0 + ((evT x : Int) - evE x)) rest := by
      have := hg i hiss
      rw [hgetD] at this
      exact goodC_cons_tail _ _ _ this
    have hlen' : (cs.set i (cs.getD i 0 + ((evT x : Int) - evE x))).length =
        (ss.set i rest).length := by
      simp [hlen]
    have hg' : ∀ j, j < (ss.set i rest).length →
        GoodC ((cs.set i (cs.getD i 0 + ((evT x : Int) - evE x))).getD j 0)
          ((ss.set i rest).getD j []) := by
      intro j hj
      rcases eq_or_ne j i with rfl | hne
      · rw [getD_set_eq cs j _ 0 hilen, getD_set_eq ss j rest [] hiss]
        exact htail
      · rw [getD_set_ne cs i j _ 0 hne, getD_set_ne ss i j rest [] hne]
        exact hg j (by simpa using hj)
    have hmain := ih _ hlen' hg'
    have hsum : (cs.set i (cs.getD i 0 + ((evT x : Int) - evE x))).sum =
        cs.sum + ((evT x : Int) - evE x) := by
      have := sum_set_add cs i (cs.getD i 0 + ((evT x : Int) - evE x)) hilen
      omega
    rw [hsum] at hmain
    intro pfx hpre
    cases pfx with
    | nil => simpa [countE, countT] using hsumnn
    | cons y pfx =>
      obtain ⟨q, hq⟩ := hpre
      rw [List.cons_append] at hq
      injection hq with h1 h2
      subst h1
      have := hmain pfx ⟨q, h2⟩
      rw [countE_cons, countT_cons]
      push_cast at this ⊢
      omega

/-- C10: in every execution — an arbitrary interleaving of worker traces,
each a concatenation of worker-loop iteration blocks — every prefix keeps
`failures ≤ jobs_started` (each iteration bumps `nb_trys` before it can
bump `nb_errs`), so the printed unsigned 64-bit subtraction
`nb_trys - nb_errs` never wraps. -/
theorem counters_no_underflow (traces : List (List TraceEv)) (out : List TraceEv)
    (h1 : ∀ tr ∈ traces, IsWorkerTrace tr) (h2 : Shuffle traces out)
    (pfx : List TraceEv) (hpre : IsPre pfx out) :
    countE pfx ≤ countT pfx ∧
    (countT pfx < 2 ^ 64 →
      (2 ^ 64 + countT pfx - countE pfx) % 2 ^ 64 = countT pfx - countE pfx) := by
  have hcred : ∀ i, i < traces.length →
      GoodC ((List.replicate traces.length (0 : Int)).getD i 0) (traces.getD i []) := by
    intro i hi
    have hmem : traces.getD i [] ∈ traces := by
      rw [List.getD_eq_get?]
      rcases hg : traces.get? i with - | tr
      · rw [List.get?_eq_none] at hg
        omega
      · simpa using List.get?_mem hg
    have hrep : (List.replicate traces.length (0 : Int)).getD i 0 = 0 := by
      rw [List.getD_eq_get?]
      rcases hr : (List.replicate traces.length (0 : Int)).get? i with - | v
      · rfl
      · have := List.get?_mem hr
        rw [List.eq_of_mem_replicate this] at hr ⊢
        rfl
    rw [hrep]
    exact isWorkerTrace_goodC _ (h1 _ hmem)
  have hgood := shuffle_goodC h2 (List.replicate traces.length 0)
    (by simp) hcred
  have hz : (List.replicate traces.length (0 : Int)).sum = 0 := by
    simp
  rw [hz] at hgood
  have hle : (countE pfx : Int) ≤ countT pfx := by
    simpa using hgood pfx hpre
  have hle' : countE pfx ≤ countT pfx := by exact_mod_cast hle
  refine ⟨hle', fun hlt => ?_⟩
  omega

/-- C10 witness: a single worker running one concrete iteration, shuffled
trivially, with the prefix after its first event. -/
theorem counters_no_underflow_witness :
    countE [TraceEv.incTrys] ≤ countT [TraceEv.incTrys] ∧
    (countT [TraceEv.incTrys] < 2 ^ 64 →
      (2 ^ 64 + countT [TraceEv.incTrys] - countE [TraceEv.incTrys]) % 2 ^ 64 =
        countT [TraceEv.incTrys] - countE [TraceEv.incTrys]) := by
  have hblock : IsIterBlock [TraceEv.incTrys, .sleepCall 0] :=
    ⟨0, 1, 100, 1000, fun _ => 0, fun _ => true, 0, 0, 2, 0, rfl⟩
  have htr : IsWorkerTrace [TraceEv.incTrys, .sleepCall 0] := by
    refine ⟨[[TraceEv.incTrys, .sleepCall 0]], ?_, by simp⟩
    intro b hb
    rw [List.mem_singleton] at hb
    subst hb
    exact hblock
  have hsh : Shuffle [[TraceEv.incTrys, .sleepCall 0]] [TraceEv.incTrys, .sleepCall 0] :=
    Shuffle.step _ 0 _ _ _ rfl (Shuffle.step _ 0 _ _ _ rfl (Shuffle.done _ (by simp)))
  refine counters_no_underflow [[TraceEv.incTrys, .sleepCall 0]]
    [TraceEv.incTrys, .sleepCall 0] ?_ hsh [TraceEv.incTrys] ⟨[TraceEv.sleepCall 0], rfl⟩
  intro tr htr2
  rw [List.mem_singleton] at htr2
  subst htr2
  exact htr

end LockArena
